import Mathlib

/-!
Verification of the GFD2024_Numerics teaching notebooks.

The repository consists of five standalone notebooks:
* an explicit FTCS diffusion notebook (oil spill),
* an implicit (backward) diffusion notebook (oil spill, matrix solve),
* a second-order-in-time shallow-water wave notebook (tsunami),
* a forward-Euler ballistic notebook,
* a finite-difference derivative-estimator notebook (sin x).

Each notebook is embedded below.  Arrays of length `n` are modelled as
functions `ℕ → K` (entries at indices `≥ n` are irrelevant junk and are kept
unchanged by the updates, mirroring the fact that the numpy arrays simply do
not have those entries).  Machine floating point is modelled by exact field
arithmetic.  Definitions are kept generic in the scalar field `K` where the
source uses only ring/field operations, and are instantiated at `ℚ` or `ℝ`
(`ℝ` whenever the source applies `exp`, `sqrt`, `sin`, `cos`).
-/

/-! ## Explicit FTCS diffusion step (oil spill notebook, explicit version)

Source (time loop):
    uu_old       = copy.deepcopy(uu_cur)
    uu_cur[1:-1] = alpha*uu_old[0:-2] + (1-2*alpha)*uu_old[1:-1] + alpha*uu_old[2:]
    uu_cur[0]    = copy.deepcopy(uu_left_dirich)
    uu_cur[-1]   = copy.deepcopy(uu_right_dirich)
The right boundary is written last, so it wins when `n = 1`. -/
def ftcs_step {K : Type} [CommRing K] (n : ℕ) (alpha uL uR : K) (u : ℕ → K) :
    ℕ → K := fun j =>
  if j + 1 = n then uR
  else if j = 0 then uL
  else if j + 1 < n then alpha * u (j - 1) + (1 - 2 * alpha) * u j + alpha * u (j + 1)
  else u j

/-- The field after `k` iterations of the FTCS loop, starting from `u0`. -/
def ftcs_iter {K : Type} [CommRing K] (n : ℕ) (alpha uL uR : K) (u0 : ℕ → K) :
    ℕ → ℕ → K
  | 0 => u0
  | k + 1 => ftcs_step n alpha uL uR (ftcs_iter n alpha uL uR u0 k)

/-- Total mass of the interior of the field (sum of interior values times the
grid step), boundaries excluded: `sum(u[1:-1]) * dx`. -/
def interior_mass {K : Type} [CommRing K] (n : ℕ) (dx : K) (u : ℕ → K) : K :=
  (∑ j ∈ Finset.Ico 1 (n - 1), u j) * dx

/-! ## Finite-difference derivative estimators (sine notebook)

Source:
    fd_dudx = np.zeros(numx)
    for ii in range(numx-1): fd_dudx[ii] = (uux[ii+1]-uux[ii])/deltax
    fd_dudx[-1] = (uux[-1]-uux[-2])/deltax
    bd_dudx = np.zeros(numx)
    for ii in range(1,numx): bd_dudx[ii] = (uux[ii]-uux[ii-1])/deltax
    bd_dudx[0] = (uux[1]-uux[0])/deltax
    cd_dudx = np.zeros(numx)
    for ii in range(1,numx-1): cd_dudx[ii] = (uux[ii+1]-uux[ii-1])/(2*deltax)
    cd_dudx[-1] = (uux[-1]-uux[-2])/deltax
    cd_dudx[0]  = (uux[1]-uux[0])/deltax
-/
def fd_dudx {K : Type} [Field K] (n : ℕ) (dx : K) (u : ℕ → K) : ℕ → K := fun i =>
  if i + 1 < n then (u (i + 1) - u i) / dx
  else if i + 1 = n then (u (n - 1) - u (n - 2)) / dx
  else 0

def bd_dudx {K : Type} [Field K] (n : ℕ) (dx : K) (u : ℕ → K) : ℕ → K := fun i =>
  if i = 0 then (u 1 - u 0) / dx
  else if i < n then (u i - u (i - 1)) / dx
  else 0

def cd_dudx {K : Type} [Field K] (n : ℕ) (dx : K) (u : ℕ → K) : ℕ → K := fun i =>
  if i = 0 then (u 1 - u 0) / dx
  else if i + 1 = n then (u (n - 1) - u (n - 2)) / dx
  else if i + 1 < n then (u (i + 1) - u (i - 1)) / (2 * dx)
  else 0

/-- Maximum absolute error of an estimate against the true values over the
grid indices `0, …, n-1`; this is the quantity whose rounded value the
notebook prints (`resids[np.argmax(abs(resids))]`). -/
def maxAbsErr {K : Type} [LinearOrder K] [Lattice K] [AddGroup K] (n : ℕ)
    (est tru : ℕ → K) : K :=
  Finset.fold max 0 (fun i => |est i - tru i|) (Finset.range n)

/-! ## Ballistic notebook (forward Euler, `ℚ`)

Source:
    for kk in range(nsteps-1):
        xxfull[kk+1]      = uu0*(kk+1)*deltat
        nmr_zzfull[kk+1]  = nmr_zzfull[kk]+deltat*(ww0-grv*(kk+1)*deltat)
        atic_zzfull[kk+1] = analytic_ballistic(xxfull[kk+1],uu0,ww0,grv)
        atic_zzfull[kk+1] = np.maximum(atic_zzfull[kk+1],0)
        nmr_zzfull[kk+1]  = np.maximum(nmr_zzfull[kk+1],0)
-/
def analytic_ballistic (xpos uinit winit gravity : ℚ) : ℚ :=
  -(gravity / 2) * (1 / uinit ^ 2) * xpos ^ 2 + (winit / uinit) * xpos

def xxfull (xx0 uu0 deltat : ℚ) : ℕ → ℚ
  | 0 => xx0
  | k + 1 => uu0 * (k + 1) * deltat

def nmr_zzfull (zz0 ww0 grv deltat : ℚ) : ℕ → ℚ
  | 0 => zz0
  | k + 1 => max (nmr_zzfull zz0 ww0 grv deltat k + deltat * (ww0 - grv * (k + 1) * deltat)) 0

def atic_zzfull (zz0 xx0 uu0 ww0 grv deltat : ℚ) : ℕ → ℚ
  | 0 => zz0
  | k + 1 => max (analytic_ballistic (xxfull xx0 uu0 deltat (k + 1)) uu0 ww0 grv) 0

/-! ## Tsunami wave notebook (centered in time and space, `ℝ`)

Source (time loop):
    uu_old_2        = copy.deepcopy(uu_old)
    uu_old          = copy.deepcopy(uu_cur)
    sp_term1        = uu_old[2:]-2*uu_old[1:-1]+uu_old[0:-2]
    sp_term2        = ((bathy_a[2:]-bathy_a[0:-2])*(uu_old[2:]-uu_old[0:-2]))
    fac1            = ((np.sqrt(grv*bathy_a)*deltat_sec/deltax)**2)[1:-1]
    fac2            = (np.sqrt(grv)*deltat_sec/(2*deltax))**2
    if(tt==0):
        uu_cur[1:-1] = uu_old[1:-1] + (1/2)*fac1*sp_term1 + fac2*sp_term2
    elif(tt>0):
        uu_cur[1:-1] = -1*uu_old_2[1:-1] + 2*uu_old[1:-1] + fac1*sp_term1 + fac2*sp_term2
    uu_cur[0]  = copy.deepcopy(uu_cur[2])
    uu_cur[-1] = copy.deepcopy(uu_cur[-3])
The slice `sp_term1[k]` corresponds to interior index `j = k+1`; everything
below is written directly at the interior index `j`. -/
def wave_sp_term1 (u : ℕ → ℝ) (j : ℕ) : ℝ := u (j + 1) - 2 * u j + u (j - 1)

def wave_sp_term2 (bathy_a u : ℕ → ℝ) (j : ℕ) : ℝ :=
  (bathy_a (j + 1) - bathy_a (j - 1)) * (u (j + 1) - u (j - 1))

noncomputable def wave_fac1 (grv dt dx : ℝ) (bathy_a : ℕ → ℝ) (j : ℕ) : ℝ :=
  (Real.sqrt (grv * bathy_a j) * dt / dx) ^ 2

noncomputable def wave_fac2 (grv dt dx : ℝ) : ℝ :=
  (Real.sqrt grv * dt / (2 * dx)) ^ 2

/-- Interior value written at index `j` during loop iteration `tt` (branch on
`tt == 0` exactly as in the source). -/
noncomputable def waveInterior (grv dt dx : ℝ) (bathy_a : ℕ → ℝ) (tt : ℕ)
    (uold2 uold : ℕ → ℝ) (j : ℕ) : ℝ :=
  if tt = 0 then
    uold j + (1 / 2) * wave_fac1 grv dt dx bathy_a j * wave_sp_term1 uold j
      + wave_fac2 grv dt dx * wave_sp_term2 bathy_a uold j
  else
    -1 * uold2 j + 2 * uold j + wave_fac1 grv dt dx bathy_a j * wave_sp_term1 uold j
      + wave_fac2 grv dt dx * wave_sp_term2 bathy_a uold j

/-- Contents of `uu_cur` after the vectorized interior write
`uu_cur[1:-1] = …` (positions outside the interior still hold the copied old
field). -/
noncomputable def waveVec (n : ℕ) (grv dt dx : ℝ) (bathy_a : ℕ → ℝ) (tt : ℕ)
    (uold2 uold : ℕ → ℝ) : ℕ → ℝ := fun i =>
  if 1 ≤ i ∧ i + 1 < n then waveInterior grv dt dx bathy_a tt uold2 uold i else uold i

/-- Contents of `uu_cur` after the first boundary write
`uu_cur[0] = uu_cur[2]`. -/
noncomputable def waveVecL (n : ℕ) (grv dt dx : ℝ) (bathy_a : ℕ → ℝ) (tt : ℕ)
    (uold2 uold : ℕ → ℝ) : ℕ → ℝ := fun i =>
  if i = 0 then waveVec n grv dt dx bathy_a tt uold2 uold 2
  else waveVec n grv dt dx bathy_a tt uold2 uold i

/-- One full iteration of the wave loop: vectorized interior write into the
copy of the old field, then the two boundary writes in source order
(`uu_cur[0] = uu_cur[2]` first, `uu_cur[-1] = uu_cur[-3]` second). -/
noncomputable def waveStep (n : ℕ) (grv dt dx : ℝ) (bathy_a : ℕ → ℝ) (tt : ℕ)
    (uold2 uold : ℕ → ℝ) : ℕ → ℝ := fun j =>
  if j + 1 = n then waveVecL n grv dt dx bathy_a tt uold2 uold (n - 3)
  else waveVecL n grv dt dx bathy_a tt uold2 uold j

/-- Loop state after `k` iterations: the pair `(uu_old, uu_cur)`.  The initial
`uu_old` buffer (`np.nan*np.ones(xnum)` in the source) is an arbitrary
parameter `w0`; the theorems show it is never read. -/
noncomputable def waveState (n : ℕ) (grv dt dx : ℝ) (bathy_a : ℕ → ℝ)
    (w0 u0 : ℕ → ℝ) : ℕ → (ℕ → ℝ) × (ℕ → ℝ)
  | 0 => (w0, u0)
  | k + 1 =>
    ((waveState n grv dt dx bathy_a w0 u0 k).2,
      waveStep n grv dt dx bathy_a k (waveState n grv dt dx bathy_a w0 u0 k).1
        (waveState n grv dt dx bathy_a w0 u0 k).2)

/-- The first-step formula as worded by the claim: the previous field plus one
half of BOTH spatial stencil terms (Laplacian term and depth-gradient cross
term).  This follows the claim's words, for comparison with `waveStep`;
the source halves only the Laplacian term. -/
noncomputable def waveFirstStep_claimForm (grv dt dx : ℝ) (bathy_a : ℕ → ℝ)
    (uold : ℕ → ℝ) (j : ℕ) : ℝ :=
  uold j + (1 / 2) * (wave_fac1 grv dt dx bathy_a j * wave_sp_term1 uold j
    + wave_fac2 grv dt dx * wave_sp_term2 bathy_a uold j)

/-! ## Implicit diffusion scheme (oil spill notebook, implicit version)

Source (matrix build, once, before the time loop):
    alpha         = bigd*deltat_sec/deltax**2
    updiag        = -alpha*np.ones(xnum-1)
    updiag[0]     = 0
    maindiag      = (1+2*alpha)*np.ones(xnum)
    maindiag[0]   = 1
    maindiag[-1]  = 1
    lowdiag       = -alpha*np.ones(xnum-1)
    lowdiag[-1]   = 0
    hmat          = diags([lowdiag,maindiag,updiag],[-1,0,1]).toarray()
    invhmat       = np.linalg.inv(hmat)
Source (time loop):
    uu_old = copy.deepcopy(uu_cur)
    uu_old = uu_old.reshape((xnum,1))
    uu_cur = (invhmat @ uu_old)
    uu_cur = uu_cur.flatten()
With `scipy.sparse.diags`, entry `m` of the `+1` diagonal sits at `(m, m+1)`
and entry `m` of the `-1` diagonal sits at `(m+1, m)`. -/
def updiag {K : Type} [CommRing K] (n : ℕ) (a : K) (k : ℕ) : K :=
  if k = 0 then 0 else -a

def maindiag {K : Type} [CommRing K] (n : ℕ) (a : K) (k : ℕ) : K :=
  if k = 0 ∨ k = n - 1 then 1 else 1 + 2 * a

def lowdiag {K : Type} [CommRing K] (n : ℕ) (a : K) (k : ℕ) : K :=
  if k = n - 2 then 0 else -a

def hmat {K : Type} [CommRing K] (n : ℕ) (a : K) : Matrix (Fin n) (Fin n) K :=
  Matrix.of fun i j =>
    if (j : ℕ) = (i : ℕ) + 1 then updiag n a i
    else if (j : ℕ) = (i : ℕ) then maindiag n a i
    else if (i : ℕ) = (j : ℕ) + 1 then lowdiag n a j
    else 0

/-- `traj` is a run of the implicit time loop started at `u0`: in exact
arithmetic, `uu_cur = invhmat @ uu_old` means the new field solves
`hmat · (new field) = (old field)`. -/
def ImplRun {K : Type} [CommRing K] (n : ℕ) (a : K) (u0 : Fin n → K)
    (traj : ℕ → Fin n → K) : Prop :=
  traj 0 = u0 ∧ ∀ k, (hmat n a).mulVec (traj (k + 1)) = traj k

namespace OilImplicit

/- Constants of the implicit oil-spill notebook. -/
def deltax : ℝ := 1000.0
def xnum : ℕ := 100
def spill_scale : ℝ := 1000.0
def uu_base : ℝ := 0.001
noncomputable def uu_spill : ℝ := 560000 / (1 * spill_scale ^ 2)
noncomputable def uu_left_dirich : ℝ := uu_spill
def uu_right_dirich : ℝ := uu_base
def bigd : ℝ := 10.0
def secperd : ℝ := 3600 * 24
def deltat_d : ℝ := 0.1
def deltat_sec : ℝ := deltat_d * secperd
noncomputable def alpha : ℝ := bigd * deltat_sec / deltax ^ 2
def xgrid (i : ℕ) : ℝ := i * deltax

/-- Initial field: baseline plus Gaussian spill profile. -/
noncomputable def uu_0 (i : ℕ) : ℝ :=
  uu_base + uu_spill * Real.exp (-(1 / 2) * xgrid i ^ 2 / spill_scale ^ 2)

noncomputable def uu_0_vec : Fin xnum → ℝ := fun i => uu_0 i

end OilImplicit

namespace SineFD

/- Constants of the sine finite-difference notebook.  `numx` is
`len(np.arange(0, 2*pi, 0.2))`, i.e. 32, since `31*0.2 < 2*pi <= 32*0.2`
(justified in `numx_eq_arange_length` below). -/
def deltax : ℝ := 0.2
def numx : ℕ := 32
def gridx (i : ℕ) : ℝ := i * deltax
noncomputable def uux (i : ℕ) : ℝ := Real.sin (gridx i)
noncomputable def true_dudx (i : ℕ) : ℝ := Real.cos (gridx i)

end SineFD

section ConcreteEvaluations

example : ftcs_step (K := ℚ) 3 1 5 7 (fun i => i) 1 = 1 * 0 + (1 - 2 * 1) * 1 + 1 * 2 := by
  norm_num [ftcs_step]

example : ftcs_step (K := ℚ) 3 1 5 7 (fun i => i) 0 = 5 := by norm_num [ftcs_step]

example : ftcs_step (K := ℚ) 3 1 5 7 (fun i => i) 2 = 7 := by norm_num [ftcs_step]

example : fd_dudx (K := ℚ) 3 1 (fun i => i * i) 0 = 1 := by norm_num [fd_dudx]

example : fd_dudx (K := ℚ) 3 1 (fun i => i * i) 2 = 3 := by norm_num [fd_dudx]

example : cd_dudx (K := ℚ) 3 1 (fun i => i * i) 1 = 2 := by norm_num [cd_dudx]

example : maxAbsErr (K := ℚ) 3 (fun i => i) (fun _ => 0) = 2 := by
  norm_num [maxAbsErr, Finset.range_succ]

example : nmr_zzfull 0 30 (981 / 100) (1 / 10) 1 = max (0 + (1 / 10) * (30 - (981 / 100) * 1 * (1 / 10))) 0 := by
  norm_num [nmr_zzfull]

example : atic_zzfull 0 0 5 30 (981 / 100) (1 / 10) 70 = 0 := by
  norm_num [atic_zzfull, xxfull, analytic_ballistic]

end ConcreteEvaluations

/-! ## Lemmas: explicit FTCS scheme -/

theorem ftcs_step_interior {K : Type} [CommRing K] (n : ℕ) (alpha uL uR : K)
    (u : ℕ → K) (j : ℕ) (h1 : 1 ≤ j) (h2 : j + 1 < n) :
    ftcs_step n alpha uL uR u j
      = alpha * u (j - 1) + (1 - 2 * alpha) * u j + alpha * u (j + 1) := by
  unfold ftcs_step
  rw [if_neg (by omega), if_neg (by omega), if_pos h2]

theorem ftcs_step_left {K : Type} [CommRing K] (n : ℕ) (alpha uL uR : K)
    (u : ℕ → K) (hn : 2 ≤ n) : ftcs_step n alpha uL uR u 0 = uL := by
  unfold ftcs_step
  rw [if_neg (by omega), if_pos rfl]

theorem ftcs_step_right {K : Type} [CommRing K] (n : ℕ) (alpha uL uR : K)
    (u : ℕ → K) (hn : 1 ≤ n) : ftcs_step n alpha uL uR u (n - 1) = uR := by
  unfold ftcs_step
  rw [if_pos (by omega)]

theorem ftcs_step_nonneg {K : Type} [LinearOrderedField K] (n : ℕ)
    (alpha uL uR : K) (u : ℕ → K) (ha0 : 0 ≤ alpha) (ha1 : alpha ≤ 1 / 2)
    (hL : 0 ≤ uL) (hR : 0 ≤ uR) (hu : ∀ i, i < n → 0 ≤ u i) :
    ∀ i, i < n → 0 ≤ ftcs_step n alpha uL uR u i := by
  intro i hi
  unfold ftcs_step
  split_ifs with hA hB hC
  · exact hR
  · exact hL
  · have c1 : 0 ≤ alpha * u (i - 1) := mul_nonneg ha0 (hu _ (by omega))
    have c2 : 0 ≤ (1 - 2 * alpha) * u i := mul_nonneg (by linarith) (hu _ hi)
    have c3 : 0 ≤ alpha * u (i + 1) := mul_nonneg ha0 (by exact hu _ (by omega))
    linarith
  · omega

theorem ftcs_step_le {K : Type} [LinearOrderedField K] (n : ℕ)
    (alpha uL uR B : K) (u : ℕ → K) (ha0 : 0 ≤ alpha) (ha1 : alpha ≤ 1 / 2)
    (hL : uL ≤ B) (hR : uR ≤ B) (hu : ∀ i, i < n → u i ≤ B) :
    ∀ i, i < n → ftcs_step n alpha uL uR u i ≤ B := by
  intro i hi
  unfold ftcs_step
  split_ifs with hA hB hC
  · exact hR
  · exact hL
  · have c1 : alpha * u (i - 1) ≤ alpha * B :=
      mul_le_mul_of_nonneg_left (hu _ (by omega)) ha0
    have c2 : (1 - 2 * alpha) * u i ≤ (1 - 2 * alpha) * B :=
      mul_le_mul_of_nonneg_left (hu _ hi) (by linarith)
    have c3 : alpha * u (i + 1) ≤ alpha * B :=
      mul_le_mul_of_nonneg_left (hu _ (by omega)) ha0
    have hsum : alpha * B + (1 - 2 * alpha) * B + alpha * B = B := by ring
    linarith
  · omega

theorem ftcs_iter_nonneg {K : Type} [LinearOrderedField K] (n : ℕ)
    (alpha uL uR : K) (u0 : ℕ → K) (ha0 : 0 ≤ alpha) (ha1 : alpha ≤ 1 / 2)
    (hL : 0 ≤ uL) (hR : 0 ≤ uR) (hu : ∀ i, i < n → 0 ≤ u0 i) :
    ∀ k i, i < n → 0 ≤ ftcs_iter n alpha uL uR u0 k i := by
  intro k
  induction k with
  | zero => exact hu
  | succ k ih => exact ftcs_step_nonneg n alpha uL uR _ ha0 ha1 hL hR ih

theorem ftcs_iter_le {K : Type} [LinearOrderedField K] (n : ℕ)
    (alpha uL uR B : K) (u0 : ℕ → K) (ha0 : 0 ≤ alpha) (ha1 : alpha ≤ 1 / 2)
    (hL : uL ≤ B) (hR : uR ≤ B) (hu : ∀ i, i < n → u0 i ≤ B) :
    ∀ k i, i < n → ftcs_iter n alpha uL uR u0 k i ≤ B := by
  intro k
  induction k with
  | zero => exact hu
  | succ k ih => exact ftcs_step_le n alpha uL uR B _ ha0 ha1 hL hR ih

theorem interior_mass_nonneg {K : Type} [LinearOrderedField K] (n : ℕ)
    (dx : K) (u : ℕ → K) (hdx : 0 ≤ dx) (hu : ∀ i, i < n → 0 ≤ u i) :
    0 ≤ interior_mass n dx u := by
  unfold interior_mass
  refine mul_nonneg (Finset.sum_nonneg ?_) hdx
  intro j hj
  exact hu j (by have := Finset.mem_Ico.mp hj; omega)

theorem interior_mass_le {K : Type} [LinearOrderedField K] (n : ℕ)
    (dx B : K) (u : ℕ → K) (hdx : 0 ≤ dx) (hB : 0 ≤ B)
    (hu : ∀ i, i < n → u i ≤ B) :
    interior_mass n dx u ≤ n * B * dx := by
  unfold interior_mass
  have hcard : (Finset.Ico 1 (n - 1)).card ≤ n := by
    rw [Nat.card_Ico]; omega
  have hsum : (∑ j ∈ Finset.Ico 1 (n - 1), u j) ≤ (n : K) * B := by
    calc (∑ j ∈ Finset.Ico 1 (n - 1), u j)
        ≤ (Finset.Ico 1 (n - 1)).card • B := by
          refine Finset.sum_le_card_nsmul _ _ _ ?_
          intro j hj
          exact hu j (by have := Finset.mem_Ico.mp hj; omega)
      _ = ((Finset.Ico 1 (n - 1)).card : K) * B := nsmul_eq_mul _ _
      _ ≤ (n : K) * B := by
          refine mul_le_mul_of_nonneg_right ?_ hB
          exact_mod_cast hcard
  exact mul_le_mul_of_nonneg_right hsum hdx

/-! ## Lemmas: tsunami wave scheme -/

theorem waveStep_interior (n : ℕ) (grv dt dx : ℝ) (bathy_a : ℕ → ℝ) (tt : ℕ)
    (uold2 uold : ℕ → ℝ) (j : ℕ) (h1 : 1 ≤ j) (h2 : j + 1 < n) :
    waveStep n grv dt dx bathy_a tt uold2 uold j
      = waveInterior grv dt dx bathy_a tt uold2 uold j := by
  unfold waveStep waveVecL waveVec
  rw [if_neg (by omega), if_neg (by omega), if_pos ⟨h1, h2⟩]

theorem waveStep_left_bc (n : ℕ) (grv dt dx : ℝ) (bathy_a : ℕ → ℝ) (tt : ℕ)
    (uold2 uold : ℕ → ℝ) (hn : 5 ≤ n) :
    waveStep n grv dt dx bathy_a tt uold2 uold 0
      = waveStep n grv dt dx bathy_a tt uold2 uold 2 := by
  have L : waveStep n grv dt dx bathy_a tt uold2 uold 0
      = waveVec n grv dt dx bathy_a tt uold2 uold 2 := by
    unfold waveStep
    rw [if_neg (show ¬(0 + 1 = n) by omega)]
    unfold waveVecL
    rw [if_pos rfl]
  have R : waveStep n grv dt dx bathy_a tt uold2 uold 2
      = waveVec n grv dt dx bathy_a tt uold2 uold 2 := by
    unfold waveStep
    rw [if_neg (show ¬(2 + 1 = n) by omega)]
    unfold waveVecL
    rw [if_neg (show ¬((2 : ℕ) = 0) by omega)]
  rw [L, R]

theorem waveStep_right_bc (n : ℕ) (grv dt dx : ℝ) (bathy_a : ℕ → ℝ) (tt : ℕ)
    (uold2 uold : ℕ → ℝ) (hn : 5 ≤ n) :
    waveStep n grv dt dx bathy_a tt uold2 uold (n - 1)
      = waveStep n grv dt dx bathy_a tt uold2 uold (n - 3) := by
  have L : waveStep n grv dt dx bathy_a tt uold2 uold (n - 1)
      = waveVecL n grv dt dx bathy_a tt uold2 uold (n - 3) := by
    unfold waveStep
    rw [if_pos (show n - 1 + 1 = n by omega)]
  have R : waveStep n grv dt dx bathy_a tt uold2 uold (n - 3)
      = waveVecL n grv dt dx bathy_a tt uold2 uold (n - 3) := by
    unfold waveStep
    rw [if_neg (show ¬(n - 3 + 1 = n) by omega)]
  rw [L, R]

theorem waveInterior_first (grv dt dx : ℝ) (bathy_a : ℕ → ℝ)
    (uold2 uold : ℕ → ℝ) (j : ℕ) :
    waveInterior grv dt dx bathy_a 0 uold2 uold j
      = uold j + (1 / 2) * wave_fac1 grv dt dx bathy_a j * wave_sp_term1 uold j
        + wave_fac2 grv dt dx * wave_sp_term2 bathy_a uold j := by
  unfold waveInterior
  rw [if_pos rfl]

theorem waveInterior_general (grv dt dx : ℝ) (bathy_a : ℕ → ℝ) (tt : ℕ)
    (uold2 uold : ℕ → ℝ) (j : ℕ) (htt : tt ≠ 0) :
    waveInterior grv dt dx bathy_a tt uold2 uold j
      = -1 * uold2 j + 2 * uold j
        + wave_fac1 grv dt dx bathy_a j * wave_sp_term1 uold j
        + wave_fac2 grv dt dx * wave_sp_term2 bathy_a uold j := by
  unfold waveInterior
  rw [if_neg htt]

/-- The first iteration (`tt = 0`) never reads the `uu_old_2` buffer: the
step result is the same for any two contents of that buffer. -/
theorem waveStep_first_indep (n : ℕ) (grv dt dx : ℝ) (bathy_a : ℕ → ℝ)
    (w w' uold : ℕ → ℝ) :
    waveStep n grv dt dx bathy_a 0 w uold
      = waveStep n grv dt dx bathy_a 0 w' uold := by
  funext j
  simp [waveStep, waveVecL, waveVec, waveInterior]

theorem waveState_zero (n : ℕ) (grv dt dx : ℝ) (bathy_a : ℕ → ℝ)
    (w0 u0 : ℕ → ℝ) : waveState n grv dt dx bathy_a w0 u0 0 = (w0, u0) := rfl

theorem waveState_succ (n : ℕ) (grv dt dx : ℝ) (bathy_a : ℕ → ℝ)
    (w0 u0 : ℕ → ℝ) (k : ℕ) :
    waveState n grv dt dx bathy_a w0 u0 (k + 1)
      = ((waveState n grv dt dx bathy_a w0 u0 k).2,
        waveStep n grv dt dx bathy_a k (waveState n grv dt dx bathy_a w0 u0 k).1
          (waveState n grv dt dx bathy_a w0 u0 k).2) := rfl

/-! ## Lemmas: implicit diffusion scheme -/

theorem hmat_row_first {K : Type} [CommRing K] (n : ℕ) (a : K) (i j : Fin n)
    (hi : (i : ℕ) = 0) : hmat n a i j = if (j : ℕ) = 0 then 1 else 0 := by
  have hj := j.isLt
  have hi2 := i.isLt
  unfold hmat updiag maindiag
  simp only [Matrix.of_apply]
  split_ifs <;> first | rfl | omega

theorem hmat_row_last {K : Type} [CommRing K] (n : ℕ) (a : K) (hn : 2 ≤ n)
    (i j : Fin n) (hi : (i : ℕ) = n - 1) :
    hmat n a i j = if (j : ℕ) = n - 1 then 1 else 0 := by
  have hj := j.isLt
  unfold hmat updiag maindiag lowdiag
  simp only [Matrix.of_apply]
  split_ifs <;> first | rfl | omega

theorem hmat_row_interior {K : Type} [CommRing K] (n : ℕ) (a : K) (i j : Fin n)
    (h1 : 1 ≤ (i : ℕ)) (h2 : (i : ℕ) + 1 < n) :
    hmat n a i j =
      if (j : ℕ) = (i : ℕ) then 1 + 2 * a
      else if (j : ℕ) = (i : ℕ) + 1 ∨ (i : ℕ) = (j : ℕ) + 1 then -a
      else 0 := by
  have hj := j.isLt
  unfold hmat updiag maindiag lowdiag
  simp only [Matrix.of_apply]
  split_ifs <;> first | rfl | omega

theorem hmat_mulVec_first {K : Type} [CommRing K] (n : ℕ) (a : K) (h0 : 0 < n)
    (v : Fin n → K) :
    (hmat n a).mulVec v ⟨0, h0⟩ = v ⟨0, h0⟩ := by
  have hm : (hmat n a).mulVec v ⟨0, h0⟩ = ∑ j, hmat n a ⟨0, h0⟩ j * v j := rfl
  rw [hm]
  rw [Finset.sum_eq_single (⟨0, h0⟩ : Fin n)]
  · rw [hmat_row_first n a ⟨0, h0⟩ ⟨0, h0⟩ rfl, if_pos rfl, one_mul]
  · intro b _ hb
    rw [hmat_row_first n a ⟨0, h0⟩ b rfl, if_neg (fun hc => hb (Fin.ext hc)), zero_mul]
  · intro hmem
    exact absurd (Finset.mem_univ _) hmem

theorem hmat_mulVec_last {K : Type} [CommRing K] (n : ℕ) (a : K) (hn : 2 ≤ n)
    (v : Fin n → K) :
    (hmat n a).mulVec v ⟨n - 1, by omega⟩ = v ⟨n - 1, by omega⟩ := by
  have hm : (hmat n a).mulVec v ⟨n - 1, by omega⟩
      = ∑ j, hmat n a ⟨n - 1, by omega⟩ j * v j := rfl
  rw [hm]
  rw [Finset.sum_eq_single (⟨n - 1, by omega⟩ : Fin n)]
  · rw [hmat_row_last n a hn ⟨n - 1, by omega⟩ ⟨n - 1, by omega⟩ rfl, if_pos rfl, one_mul]
  · intro b _ hb
    rw [hmat_row_last n a hn ⟨n - 1, by omega⟩ b rfl, if_neg (fun hc => hb (Fin.ext hc)), zero_mul]
  · intro hmem
    exact absurd (Finset.mem_univ _) hmem

theorem hmat_mulVec_interior {K : Type} [CommRing K] (n : ℕ) (a : K) (i : Fin n)
    (h1 : 1 ≤ (i : ℕ)) (h2 : (i : ℕ) + 1 < n) (v : Fin n → K) :
    (hmat n a).mulVec v i
      = -a * v ⟨(i : ℕ) - 1, by omega⟩ + (1 + 2 * a) * v i
        + -a * v ⟨(i : ℕ) + 1, by omega⟩ := by
  have hm : (hmat n a).mulVec v i = ∑ j, hmat n a i j * v j := rfl
  set im : Fin n := ⟨(i : ℕ) - 1, by omega⟩ with him
  set ip : Fin n := ⟨(i : ℕ) + 1, by omega⟩ with hip
  have hvim : (im : ℕ) = (i : ℕ) - 1 := rfl
  have hvip : (ip : ℕ) = (i : ℕ) + 1 := rfl
  have hne1 : im ≠ i := by
    intro hc; rw [Fin.ext_iff] at hc; omega
  have hne2 : im ≠ ip := by
    intro hc; rw [Fin.ext_iff] at hc; simp only [hvim, hvip] at hc; omega
  have hne3 : i ≠ ip := by
    intro hc; rw [Fin.ext_iff] at hc; omega
  have hsub : ({im, i, ip} : Finset (Fin n)) ⊆ Finset.univ := Finset.subset_univ _
  have hout : ∀ x ∈ Finset.univ, x ∉ ({im, i, ip} : Finset (Fin n)) →
      hmat n a i x * v x = 0 := by
    intro x _ hx
    simp only [Finset.mem_insert, Finset.mem_singleton] at hx
    push_neg at hx
    obtain ⟨hx1, hx2, hx3⟩ := hx
    have hx1v : (x : ℕ) ≠ (i : ℕ) - 1 := fun hc => hx1 (Fin.ext hc)
    have hx2v : (x : ℕ) ≠ (i : ℕ) := fun hc => hx2 (Fin.ext hc)
    have hx3v : (x : ℕ) ≠ (i : ℕ) + 1 := fun hc => hx3 (Fin.ext hc)
    rw [hmat_row_interior n a i x h1 h2, if_neg hx2v,
      if_neg (by push_neg; exact ⟨hx3v, by omega⟩), zero_mul]
  rw [hm, ← Finset.sum_subset hsub hout]
  have hstep : ({im, i, ip} : Finset (Fin n)) = insert im (insert i {ip}) := rfl
  rw [hstep, Finset.sum_insert (by simp [hne1, hne2]),
    Finset.sum_insert (by simp [hne3]), Finset.sum_singleton]
  have e1 : hmat n a i im = -a := by
    rw [hmat_row_interior n a i im h1 h2, if_neg (by rw [hvim]; omega),
      if_pos (Or.inr (by rw [hvim]; omega))]
  have e2 : hmat n a i i = 1 + 2 * a := by
    rw [hmat_row_interior n a i i h1 h2, if_pos rfl]
  have e3 : hmat n a i ip = -a := by
    rw [hmat_row_interior n a i ip h1 h2, if_neg (by rw [hvip]; omega),
      if_pos (Or.inl (by rw [hvip]))]
  rw [e1, e2, e3]
  ring

/-- Discrete maximum principle: for `a ≥ 0` the only vector sent to zero by
the implicit coefficient matrix is the zero vector. -/
theorem hmat_mulVec_eq_zero {K : Type} [LinearOrderedField K] (n : ℕ) (a : K)
    (ha : 0 ≤ a) (x : Fin n → K) (hx : (hmat n a).mulVec x = 0) : x = 0 := by
  rcases Nat.eq_zero_or_pos n with h0 | h0
  · funext i
    exact absurd i.isLt (by omega)
  obtain ⟨j, _, hj⟩ :=
    Finset.exists_max_image Finset.univ (fun i => |x i|) ⟨⟨0, h0⟩, Finset.mem_univ _⟩
  suffices hzero : x j = 0 by
    funext i
    have hle := hj i (Finset.mem_univ i)
    rw [hzero, abs_zero] at hle
    have := abs_nonneg (x i)
    have : |x i| = 0 := le_antisymm hle this
    simpa using abs_eq_zero.mp this
  have hjlt := j.isLt
  by_cases hj0 : (j : ℕ) = 0
  · have hrow := hmat_mulVec_first n a h0 x
    have hx0 : (hmat n a).mulVec x ⟨0, h0⟩ = 0 := by rw [hx]; rfl
    have : x ⟨0, h0⟩ = 0 := by rw [← hrow, hx0]
    have hjeq : j = (⟨0, h0⟩ : Fin n) := Fin.ext hj0
    rw [hjeq]
    exact this
  by_cases hjN : (j : ℕ) = n - 1
  · have hn2 : 2 ≤ n := by omega
    have hrow := hmat_mulVec_last n a hn2 x
    have hx0 : (hmat n a).mulVec x ⟨n - 1, by omega⟩ = 0 := by rw [hx]; rfl
    have : x ⟨n - 1, by omega⟩ = 0 := by rw [← hrow, hx0]
    have hjeq : j = (⟨n - 1, by omega⟩ : Fin n) := Fin.ext hjN
    rw [hjeq]
    exact this
  · have h1 : 1 ≤ (j : ℕ) := by omega
    have h2 : (j : ℕ) + 1 < n := by omega
    have hrow := hmat_mulVec_interior n a j h1 h2 x
    have hx0 : (hmat n a).mulVec x j = 0 := by rw [hx]; rfl
    rw [hx0] at hrow
    set xm := x ⟨(j : ℕ) - 1, by omega⟩ with hxm
    set xp := x ⟨(j : ℕ) + 1, by omega⟩ with hxp
    have heq : (1 + 2 * a) * x j = a * (xm + xp) := by linarith [hrow.symm]
    have habs : (1 + 2 * a) * |x j| = |(1 + 2 * a) * x j| := by
      rw [abs_mul, abs_of_nonneg (by linarith : (0 : K) ≤ 1 + 2 * a)]
    have hb1 : |xm| ≤ |x j| := hj _ (Finset.mem_univ _)
    have hb2 : |xp| ≤ |x j| := hj _ (Finset.mem_univ _)
    have hchain : (1 + 2 * a) * |x j| ≤ 2 * a * |x j| := by
      calc (1 + 2 * a) * |x j| = |(1 + 2 * a) * x j| := habs
        _ = |a * (xm + xp)| := by rw [heq]
        _ = a * |xm + xp| := by rw [abs_mul, abs_of_nonneg ha]
        _ ≤ a * (|xm| + |xp|) := by
            exact mul_le_mul_of_nonneg_left (abs_add _ _) ha
        _ ≤ a * (|x j| + |x j|) := by
            exact mul_le_mul_of_nonneg_left (by linarith) ha
        _ = 2 * a * |x j| := by ring
    have hnn := abs_nonneg (x j)
    have : |x j| ≤ 0 := by nlinarith
    exact abs_eq_zero.mp (le_antisymm this hnn)

theorem hmat_mulVec_injective {K : Type} [LinearOrderedField K] (n : ℕ) (a : K)
    (ha : 0 ≤ a) : Function.Injective ((hmat n a).mulVec) := by
  intro x y hxy
  have hsub : (hmat n a).mulVec (x - y) = 0 := by
    have := (hmat n a).mulVecLin.map_sub x y
    rw [Matrix.mulVecLin_apply, Matrix.mulVecLin_apply, Matrix.mulVecLin_apply] at this
    rw [this, hxy, sub_self]
  have := hmat_mulVec_eq_zero n a ha (x - y) hsub
  exact sub_eq_zero.mp this

theorem hmat_mulVec_surjective {K : Type} [LinearOrderedField K] (n : ℕ) (a : K)
    (ha : 0 ≤ a) : Function.Surjective ((hmat n a).mulVec) := by
  have hco : ⇑((hmat n a).mulVecLin) = (hmat n a).mulVec := by
    funext v
    exact Matrix.mulVecLin_apply _ _
  have hinj : Function.Injective ((hmat n a).mulVecLin) := by
    rw [hco]
    exact hmat_mulVec_injective n a ha
  have hsurj : Function.Surjective ((hmat n a).mulVecLin) :=
    LinearMap.injective_iff_surjective.mp hinj
  rw [hco] at hsurj
  exact hsurj

/-- Boundary entries are invariant along any run of the implicit loop. -/
theorem ImplRun_boundary {K : Type} [CommRing K] (n : ℕ) (a : K)
    (u0 : Fin n → K) (traj : ℕ → Fin n → K) (hrun : ImplRun n a u0 traj)
    (hn : 2 ≤ n) :
    ∀ k, traj k ⟨0, by omega⟩ = u0 ⟨0, by omega⟩
      ∧ traj k ⟨n - 1, by omega⟩ = u0 ⟨n - 1, by omega⟩ := by
  intro k
  induction k with
  | zero => rw [hrun.1]; exact ⟨rfl, rfl⟩
  | succ k ih =>
    obtain ⟨ih1, ih2⟩ := ih
    constructor
    · rw [← ih1, ← hrun.2 k]
      exact (hmat_mulVec_first n a (by omega) (traj (k + 1))).symm
    · rw [← ih2, ← hrun.2 k]
      exact (hmat_mulVec_last n a hn (traj (k + 1))).symm

namespace OilImplicit

theorem alpha_val : alpha = 0.0864 := by
  unfold alpha bigd deltat_sec deltat_d secperd deltax
  norm_num

theorem alpha_nonneg : 0 ≤ alpha := by rw [alpha_val]; norm_num

theorem uu_0_left : uu_0 0 = uu_base + uu_spill := by
  unfold uu_0 xgrid
  norm_num

theorem uu_0_left_val : uu_0 0 = 0.561 := by
  rw [uu_0_left]
  unfold uu_base uu_spill spill_scale
  norm_num

theorem uu_0_left_ne_dirich : uu_0 0 ≠ uu_left_dirich := by
  rw [uu_0_left_val]
  unfold uu_left_dirich uu_spill spill_scale
  norm_num

end OilImplicit

/-! ## Lemmas: sine-notebook derivative estimators -/

theorem maxAbsErr_le {n : ℕ} {est tru : ℕ → ℝ} {c : ℝ} (hc : 0 ≤ c)
    (h : ∀ i, i < n → |est i - tru i| ≤ c) : maxAbsErr n est tru ≤ c := by
  unfold maxAbsErr
  rw [Finset.fold_max_le]
  exact ⟨hc, fun x hx => h x (Finset.mem_range.mp hx)⟩

theorem le_maxAbsErr {n : ℕ} {est tru : ℕ → ℝ} {c : ℝ} (i : ℕ) (hi : i < n)
    (h : c ≤ |est i - tru i|) : c ≤ maxAbsErr n est tru := by
  unfold maxAbsErr
  rw [Finset.le_fold_max]
  exact Or.inr ⟨i, Finset.mem_range.mpr hi, h⟩

namespace SineFD

/-- The notebook's `numx = len(np.arange(0, 2*pi, 0.2))` equals 32:
the 32 grid points `0, 0.2, …, 6.2` lie in `[0, 2π)` and the next one
(`6.4`) does not. -/
theorem numx_eq_arange_length :
    ((numx : ℝ) - 1) * deltax < 2 * Real.pi ∧ 2 * Real.pi ≤ (numx : ℝ) * deltax := by
  unfold numx deltax
  constructor
  · nlinarith [Real.pi_gt_d6]
  · nlinarith [Real.pi_lt_d6]

theorem gridx_succ (i : ℕ) : gridx (i + 1) = gridx i + deltax := by
  unfold gridx
  push_cast
  ring

theorem gridx_pred (i : ℕ) (h : 1 ≤ i) : gridx (i - 1) = gridx i - deltax := by
  unfold gridx
  rw [Nat.cast_sub h]
  push_cast
  ring

theorem sin_fifth_bounds :
    (2383 / 12000 : ℝ) ≤ Real.sin (1 / 5) ∧ Real.sin (1 / 5) ≤ 2385 / 12000 := by
  have hx : |(1 / 5 : ℝ)| ≤ 1 := by rw [abs_of_nonneg] <;> norm_num
  have h := Real.sin_bound hx
  rw [show |(1 / 5 : ℝ)| = 1 / 5 by rw [abs_of_nonneg]; norm_num] at h
  rw [abs_le] at h
  obtain ⟨hlo, hhi⟩ := h
  constructor <;> [nlinarith; nlinarith]

theorem cos_fifth_bounds :
    (11759 / 12000 : ℝ) ≤ Real.cos (1 / 5) ∧ Real.cos (1 / 5) ≤ 11761 / 12000 := by
  have hx : |(1 / 5 : ℝ)| ≤ 1 := by rw [abs_of_nonneg] <;> norm_num
  have h := Real.cos_bound hx
  rw [show |(1 / 5 : ℝ)| = 1 / 5 by rw [abs_of_nonneg]; norm_num] at h
  rw [abs_le] at h
  obtain ⟨hlo, hhi⟩ := h
  constructor <;> [nlinarith; nlinarith]

theorem sin_twofifth_lb : (291 / 750 : ℝ) ≤ Real.sin (2 / 5) := by
  have hx : |(2 / 5 : ℝ)| ≤ 1 := by rw [abs_of_nonneg] <;> norm_num
  have h := Real.sin_bound hx
  rw [show |(2 / 5 : ℝ)| = 2 / 5 by rw [abs_of_nonneg]; norm_num] at h
  rw [abs_le] at h
  nlinarith [h.1]

theorem cos_twofifth_nonneg : (0 : ℝ) ≤ Real.cos (2 / 5) := by
  have hx : |(2 / 5 : ℝ)| ≤ 1 := by rw [abs_of_nonneg] <;> norm_num
  have h := Real.cos_bound hx
  rw [show |(2 / 5 : ℝ)| = 2 / 5 by rw [abs_of_nonneg]; norm_num] at h
  rw [abs_le] at h
  nlinarith [h.1]

/-- The last grid point `x₃₁ = 6.2` is just below `2π`, so `|sin x₃₁|` is
small. -/
theorem abs_sin_last_le : |Real.sin (gridx 31)| ≤ 83186 / 1000000 := by
  have hg : gridx 31 = 31 / 5 := by unfold gridx deltax; norm_num
  rw [hg]
  have hy0 : (0 : ℝ) < 2 * Real.pi - 31 / 5 := by nlinarith [Real.pi_gt_d6]
  have hy1 : 2 * Real.pi - 31 / 5 ≤ 83186 / 1000000 := by nlinarith [Real.pi_lt_d6]
  have hper : Real.sin (2 * Real.pi - 31 / 5) = -Real.sin (31 / 5) := by
    rw [show 2 * Real.pi - 31 / 5 = -(31 / 5) + 2 * Real.pi by ring,
      Real.sin_add_two_pi, Real.sin_neg]
  have h2 : Real.sin (31 / 5) = -Real.sin (2 * Real.pi - 31 / 5) := by
    rw [hper, neg_neg]
  rw [h2, abs_neg]
  have hsnn : 0 ≤ Real.sin (2 * Real.pi - 31 / 5) := by
    refine Real.sin_nonneg_of_nonneg_of_le_pi (le_of_lt hy0) ?_
    nlinarith [Real.pi_gt_d6]
  rw [abs_of_nonneg hsnn]
  have := Real.sin_lt hy0
  linarith

end SineFD

namespace SineFD

/-- Error of a forward one-sided difference of the sine samples. -/
theorem fwd_formula_err (i : ℕ) :
    (uux (i + 1) - uux i) / deltax - true_dudx i
      = -(5 * (1 - Real.cos (1 / 5))) * Real.sin (gridx i)
        - (1 - 5 * Real.sin (1 / 5)) * Real.cos (gridx i) := by
  have hd : deltax = 1 / 5 := by unfold deltax; norm_num
  have hs : gridx (i + 1) = gridx i + 1 / 5 := by rw [gridx_succ, hd]
  unfold uux true_dudx
  rw [hs, Real.sin_add, hd]
  ring

/-- Error of a backward one-sided difference of the sine samples. -/
theorem back_formula_err (i : ℕ) (h1 : 1 ≤ i) :
    (uux i - uux (i - 1)) / deltax - true_dudx i
      = 5 * (1 - Real.cos (1 / 5)) * Real.sin (gridx i)
        - (1 - 5 * Real.sin (1 / 5)) * Real.cos (gridx i) := by
  have hd : deltax = 1 / 5 := by unfold deltax; norm_num
  have hp : gridx (i - 1) = gridx i - 1 / 5 := by rw [gridx_pred i h1, hd]
  unfold uux true_dudx
  rw [hp, Real.sin_sub, hd]
  ring

/-- Error of the centered difference of the sine samples. -/
theorem cd_err_interior (i : ℕ) (h1 : 1 ≤ i) (h2 : i + 1 < numx) :
    cd_dudx numx deltax uux i - true_dudx i
      = -((1 - 5 * Real.sin (1 / 5)) * Real.cos (gridx i)) := by
  have hd : deltax = 1 / 5 := by unfold deltax; norm_num
  have hs : gridx (i + 1) = gridx i + 1 / 5 := by rw [gridx_succ, hd]
  have hp : gridx (i - 1) = gridx i - 1 / 5 := by rw [gridx_pred i (by omega), hd]
  unfold cd_dudx
  rw [if_neg (by omega), if_neg (by omega), if_pos h2]
  unfold uux true_dudx
  rw [hs, hp, Real.sin_add, Real.sin_sub, hd]
  ring

theorem cd_err_zero :
    cd_dudx numx deltax uux 0 - true_dudx 0 = -(1 - 5 * Real.sin (1 / 5)) := by
  have hd : deltax = 1 / 5 := by unfold deltax; norm_num
  have h0 : gridx 0 = 0 := by unfold gridx; norm_num
  have h1 : gridx 1 = 1 / 5 := by unfold gridx deltax; norm_num
  unfold cd_dudx
  rw [if_pos rfl]
  unfold uux true_dudx
  rw [h0, h1, hd, Real.sin_zero, Real.cos_zero]
  ring

theorem cd_eq_back_at_last :
    cd_dudx numx deltax uux (numx - 1) = (uux 31 - uux 30) / deltax := by
  unfold cd_dudx
  rw [if_neg (by norm_num [numx]), if_pos (by norm_num [numx])]
  norm_num [numx]

theorem fd_eq_fwd (i : ℕ) (h : i + 1 < numx) :
    fd_dudx numx deltax uux i = (uux (i + 1) - uux i) / deltax := by
  unfold fd_dudx
  rw [if_pos h]

theorem bd_eq_back (i : ℕ) (h1 : 1 ≤ i) (h2 : i < numx) :
    bd_dudx numx deltax uux i = (uux i - uux (i - 1)) / deltax := by
  unfold bd_dudx
  rw [if_neg (by omega), if_pos h2]

end SineFD

namespace SineFD

theorem Q_bounds :
    (15 / 2400 : ℝ) ≤ 1 - 5 * Real.sin (1 / 5)
      ∧ 1 - 5 * Real.sin (1 / 5) ≤ 17 / 2400 := by
  have h := sin_fifth_bounds
  constructor <;> linarith [h.1, h.2]

theorem P_bounds :
    (239 / 2400 : ℝ) ≤ 5 * (1 - Real.cos (1 / 5))
      ∧ 5 * (1 - Real.cos (1 / 5)) ≤ 241 / 2400 := by
  have h := cos_fifth_bounds
  constructor <;> linarith [h.1, h.2]

/-- Every centered-difference error on the sine grid is at most `0.0155`. -/
theorem cd_maxAbsErr_le :
    maxAbsErr numx (cd_dudx numx deltax uux) true_dudx ≤ 31 / 2000 := by
  have hQ := Q_bounds
  have hP := P_bounds
  refine maxAbsErr_le (by norm_num) ?_
  intro i hi
  have hnum : numx = 32 := rfl
  by_cases hi0 : i = 0
  · rw [hi0, cd_err_zero, abs_neg,
      abs_of_nonneg (by linarith [hQ.1] : (0 : ℝ) ≤ 1 - 5 * Real.sin (1 / 5))]
    linarith [hQ.2]
  by_cases hiN : i = 31
  · have hback : cd_dudx numx deltax uux 31 - true_dudx 31
        = 5 * (1 - Real.cos (1 / 5)) * Real.sin (gridx 31)
          - (1 - 5 * Real.sin (1 / 5)) * Real.cos (gridx 31) := by
      have he : cd_dudx numx deltax uux 31 = (uux 31 - uux 30) / deltax :=
        cd_eq_back_at_last
      rw [he]
      have hb := back_formula_err 31 (by omega)
      simpa using hb
    rw [hiN, hback]
    have t1 : |5 * (1 - Real.cos (1 / 5)) * Real.sin (gridx 31)|
        ≤ (241 / 2400) * (83186 / 1000000) := by
      rw [abs_mul, abs_of_nonneg (by linarith [hP.1] : (0 : ℝ) ≤ 5 * (1 - Real.cos (1 / 5)))]
      exact mul_le_mul hP.2 abs_sin_last_le (abs_nonneg _) (by norm_num)
    have t2 : |(1 - 5 * Real.sin (1 / 5)) * Real.cos (gridx 31)| ≤ 17 / 2400 := by
      rw [abs_mul, abs_of_nonneg (by linarith [hQ.1] : (0 : ℝ) ≤ 1 - 5 * Real.sin (1 / 5))]
      calc (1 - 5 * Real.sin (1 / 5)) * |Real.cos (gridx 31)|
          ≤ (17 / 2400) * 1 :=
            mul_le_mul hQ.2 (Real.abs_cos_le_one _) (abs_nonneg _) (by norm_num)
        _ = 17 / 2400 := by norm_num
    have tineq : |5 * (1 - Real.cos (1 / 5)) * Real.sin (gridx 31)
          - (1 - 5 * Real.sin (1 / 5)) * Real.cos (gridx 31)|
        ≤ |5 * (1 - Real.cos (1 / 5)) * Real.sin (gridx 31)|
          + |(1 - 5 * Real.sin (1 / 5)) * Real.cos (gridx 31)| := by
      rw [sub_eq_add_neg]
      exact (abs_add _ _).trans (by rw [abs_neg])
    have : (241 / 2400 : ℝ) * (83186 / 1000000) + 17 / 2400 ≤ 31 / 2000 := by norm_num
    linarith
  · have h1 : 1 ≤ i := by omega
    have h2 : i + 1 < numx := by omega
    rw [cd_err_interior i h1 h2, abs_neg, abs_mul,
      abs_of_nonneg (by linarith [hQ.1] : (0 : ℝ) ≤ 1 - 5 * Real.sin (1 / 5))]
    calc (1 - 5 * Real.sin (1 / 5)) * |Real.cos (gridx i)|
        ≤ (17 / 2400) * 1 :=
          mul_le_mul hQ.2 (Real.abs_cos_le_one _) (abs_nonneg _) (by norm_num)
      _ ≤ 31 / 2000 := by norm_num

/-- The forward-difference error at the grid point `x₂ = 0.4` is at least
`0.0386`. -/
theorem fd_maxAbsErr_ge :
    (69549 / 1800000 : ℝ)
      ≤ maxAbsErr numx (fd_dudx numx deltax uux) true_dudx := by
  have hQ := Q_bounds
  have hP := P_bounds
  have hs := sin_twofifth_lb
  have hc := cos_twofifth_nonneg
  refine le_maxAbsErr 2 (by norm_num [numx]) ?_
  have hg2 : gridx 2 = 2 / 5 := by unfold gridx deltax; norm_num
  have herr : fd_dudx numx deltax uux 2 - true_dudx 2
      = -(5 * (1 - Real.cos (1 / 5))) * Real.sin (2 / 5)
        - (1 - 5 * Real.sin (1 / 5)) * Real.cos (2 / 5) := by
    rw [fd_eq_fwd 2 (by norm_num [numx]), fwd_formula_err 2, hg2]
  rw [herr]
  have hflip : -(5 * (1 - Real.cos (1 / 5))) * Real.sin (2 / 5)
        - (1 - 5 * Real.sin (1 / 5)) * Real.cos (2 / 5)
      = -(5 * (1 - Real.cos (1 / 5)) * Real.sin (2 / 5)
        + (1 - 5 * Real.sin (1 / 5)) * Real.cos (2 / 5)) := by ring
  have hterm1 : (239 / 2400 : ℝ) * (291 / 750)
      ≤ 5 * (1 - Real.cos (1 / 5)) * Real.sin (2 / 5) :=
    mul_le_mul hP.1 hs (by norm_num) (by linarith [hP.1])
  have hterm2 : (0 : ℝ) ≤ (1 - 5 * Real.sin (1 / 5)) * Real.cos (2 / 5) :=
    mul_nonneg (by linarith [hQ.1]) hc
  rw [hflip, abs_neg, abs_of_nonneg (by linarith [hterm1] : (0 : ℝ) ≤ _)]
  have : (69549 / 1800000 : ℝ) = (239 / 2400) * (291 / 750) := by norm_num
  linarith

/-- The backward-difference error at the grid point `x₂ = 0.4` is at least
`0.0315`. -/
theorem bd_maxAbsErr_ge :
    (56799 / 1800000 : ℝ)
      ≤ maxAbsErr numx (bd_dudx numx deltax uux) true_dudx := by
  have hQ := Q_bounds
  have hP := P_bounds
  have hs := sin_twofifth_lb
  refine le_maxAbsErr 2 (by norm_num [numx]) ?_
  have hg2 : gridx 2 = 2 / 5 := by unfold gridx deltax; norm_num
  have herr : bd_dudx numx deltax uux 2 - true_dudx 2
      = 5 * (1 - Real.cos (1 / 5)) * Real.sin (2 / 5)
        - (1 - 5 * Real.sin (1 / 5)) * Real.cos (2 / 5) := by
    rw [bd_eq_back 2 (by omega) (by norm_num [numx])]
    have hb := back_formula_err 2 (by omega)
    rw [hg2] at hb
    simpa using hb
  rw [herr]
  have hterm1 : (239 / 2400 : ℝ) * (291 / 750)
      ≤ 5 * (1 - Real.cos (1 / 5)) * Real.sin (2 / 5) :=
    mul_le_mul hP.1 hs (by norm_num) (by linarith [hP.1])
  have hterm2 : (1 - 5 * Real.sin (1 / 5)) * Real.cos (2 / 5) ≤ 17 / 2400 := by
    calc (1 - 5 * Real.sin (1 / 5)) * Real.cos (2 / 5)
        ≤ (1 - 5 * Real.sin (1 / 5)) * 1 := by
          refine mul_le_mul_of_nonneg_left ?_ (by linarith [hQ.1])
          exact Real.cos_le_one _
      _ ≤ 17 / 2400 := by linarith [hQ.2]
  have hlow : (56799 / 1800000 : ℝ)
      ≤ 5 * (1 - Real.cos (1 / 5)) * Real.sin (2 / 5)
        - (1 - 5 * Real.sin (1 / 5)) * Real.cos (2 / 5) := by
    have : (56799 / 1800000 : ℝ) = (239 / 2400) * (291 / 750) - 17 / 2400 := by
      norm_num
    linarith
  exact hlow.trans (le_abs_self _)

end SineFD

/-! ## Claim theorems -/

/-- Claim C1: for every current field `u` of length `N ≥ 3` and coefficient
`alpha = D*dt/dx^2`, one explicit FTCS diffusion step produces a next field in
which every interior point `j` (`1 ≤ j ≤ N-2`) equals
`alpha*u[j-1] + (1-2*alpha)*u[j] + alpha*u[j+1]` computed from the
previous-step field, and the two boundary points are then overwritten with the
fixed left and right Dirichlet constants; the step is a total function with no
error conditions. -/
theorem C1_thm (n : ℕ) (D dt dx uL uR : ℚ) (u : ℕ → ℚ) (hn : 3 ≤ n) :
    (∀ j, 1 ≤ j → j ≤ n - 2 →
      ftcs_step n (D * dt / dx ^ 2) uL uR u j
        = (D * dt / dx ^ 2) * u (j - 1) + (1 - 2 * (D * dt / dx ^ 2)) * u j
          + (D * dt / dx ^ 2) * u (j + 1))
    ∧ ftcs_step n (D * dt / dx ^ 2) uL uR u 0 = uL
    ∧ ftcs_step n (D * dt / dx ^ 2) uL uR u (n - 1) = uR :=
  ⟨fun j h1 h2 => ftcs_step_interior n _ uL uR u j h1 (by omega),
    ftcs_step_left n _ uL uR u (by omega),
    ftcs_step_right n _ uL uR u (by omega)⟩

/-- Witness for C1 at the concrete instance `n = 3`, `D = 2`, `dt = 1`,
`dx = 1`, boundary constants `5` and `7`. -/
theorem C1_witness :
    (3 : ℕ) ≤ 3
      ∧ ((∀ j, 1 ≤ j → j ≤ 3 - 2 →
          ftcs_step 3 ((2 : ℚ) * 1 / 1 ^ 2) 5 7 (fun i => (i : ℚ)) j
            = ((2 : ℚ) * 1 / 1 ^ 2) * ((j - 1 : ℕ) : ℚ)
              + (1 - 2 * ((2 : ℚ) * 1 / 1 ^ 2)) * ((j : ℕ) : ℚ)
              + ((2 : ℚ) * 1 / 1 ^ 2) * ((j + 1 : ℕ) : ℚ))
        ∧ ftcs_step 3 ((2 : ℚ) * 1 / 1 ^ 2) 5 7 (fun i => (i : ℚ)) 0 = 5
        ∧ ftcs_step 3 ((2 : ℚ) * 1 / 1 ^ 2) 5 7 (fun i => (i : ℚ)) (3 - 1) = 7) :=
  ⟨by norm_num, C1_thm 3 2 1 1 5 7 (fun i => (i : ℚ)) (by norm_num)⟩

/-- Claim C5: for every sampled function on a grid of `N ≥ 2` points with step
`dx`, the derivative estimators satisfy: forward estimate
`(u[i+1]-u[i])/dx` at every point with a right neighbor, with the rightmost
point instead using the backward formula `(u[N-1]-u[N-2])/dx`; backward
estimate `(u[i]-u[i-1])/dx` at every point with a left neighbor, with the
leftmost point instead using the forward formula `(u[1]-u[0])/dx`; centered
estimate `(u[i+1]-u[i-1])/(2*dx)` at every interior point, with the two
boundary points falling back to the corresponding one-sided formulas. -/
theorem C5_thm {K : Type} [Field K] (n : ℕ) (dx : K) (u : ℕ → K)
    (hn : 2 ≤ n) (i : ℕ) (hi : i < n) :
    (i + 1 < n → fd_dudx n dx u i = (u (i + 1) - u i) / dx)
    ∧ (i + 1 = n → fd_dudx n dx u i = (u (n - 1) - u (n - 2)) / dx)
    ∧ (1 ≤ i → bd_dudx n dx u i = (u i - u (i - 1)) / dx)
    ∧ (i = 0 → bd_dudx n dx u i = (u 1 - u 0) / dx)
    ∧ (1 ≤ i → i + 1 < n → cd_dudx n dx u i = (u (i + 1) - u (i - 1)) / (2 * dx))
    ∧ (i = 0 → cd_dudx n dx u i = (u 1 - u 0) / dx)
    ∧ (i + 1 = n → cd_dudx n dx u i = (u (n - 1) - u (n - 2)) / dx) := by
  refine ⟨?_, ?_, ?_, ?_, ?_, ?_, ?_⟩
  · intro h
    unfold fd_dudx
    rw [if_pos h]
  · intro h
    unfold fd_dudx
    rw [if_neg (by omega), if_pos h]
  · intro h
    unfold bd_dudx
    rw [if_neg (by omega), if_pos hi]
  · intro h
    unfold bd_dudx
    rw [if_pos h]
  · intro h1 h2
    unfold cd_dudx
    rw [if_neg (by omega), if_neg (by omega), if_pos h2]
  · intro h
    unfold cd_dudx
    rw [if_pos h]
  · intro h
    unfold cd_dudx
    rw [if_neg (by omega), if_pos h]

/-- Witness for C5 at the concrete instance `K = ℚ`, `n = 3`, `dx = 1`,
`u i = i²`, `i = 2`. -/
theorem C5_witness :
    (2 : ℕ) ≤ 3 ∧ (2 : ℕ) < 3
      ∧ ((2 + 1 < 3 → fd_dudx 3 (1 : ℚ) (fun i => (i : ℚ) ^ 2) 2
          = (((2 + 1 : ℕ) : ℚ) ^ 2 - ((2 : ℕ) : ℚ) ^ 2) / 1)
        ∧ (2 + 1 = 3 → fd_dudx 3 (1 : ℚ) (fun i => (i : ℚ) ^ 2) 2
          = (((3 - 1 : ℕ) : ℚ) ^ 2 - ((3 - 2 : ℕ) : ℚ) ^ 2) / 1)
        ∧ (1 ≤ 2 → bd_dudx 3 (1 : ℚ) (fun i => (i : ℚ) ^ 2) 2
          = (((2 : ℕ) : ℚ) ^ 2 - ((2 - 1 : ℕ) : ℚ) ^ 2) / 1)
        ∧ ((2 : ℕ) = 0 → bd_dudx 3 (1 : ℚ) (fun i => (i : ℚ) ^ 2) 2
          = (((1 : ℕ) : ℚ) ^ 2 - ((0 : ℕ) : ℚ) ^ 2) / 1)
        ∧ (1 ≤ 2 → 2 + 1 < 3 → cd_dudx 3 (1 : ℚ) (fun i => (i : ℚ) ^ 2) 2
          = (((2 + 1 : ℕ) : ℚ) ^ 2 - ((2 - 1 : ℕ) : ℚ) ^ 2) / (2 * 1))
        ∧ ((2 : ℕ) = 0 → cd_dudx 3 (1 : ℚ) (fun i => (i : ℚ) ^ 2) 2
          = (((1 : ℕ) : ℚ) ^ 2 - ((0 : ℕ) : ℚ) ^ 2) / 1)
        ∧ (2 + 1 = 3 → cd_dudx 3 (1 : ℚ) (fun i => (i : ℚ) ^ 2) 2
          = (((3 - 1 : ℕ) : ℚ) ^ 2 - ((3 - 2 : ℕ) : ℚ) ^ 2) / 1)) :=
  ⟨by norm_num, by norm_num,
    C5_thm 3 (1 : ℚ) (fun i => (i : ℚ) ^ 2) (by norm_num) 2 (by norm_num)⟩

/-- Claim C7: for the explicit FTCS diffusion update with
`0 ≤ alpha = D*dt/dx² ≤ 1/2` and non-negative Dirichlet boundary constants,
every non-negative initial field stays non-negative at every grid point after
any number of steps (no sign oscillation), and the total interior mass
(sum of interior values times the grid step) stays bounded over the run:
it lies in `[0, n*B*dx]` for any bound `B` on the initial data and boundary
constants. -/
theorem C7_thm (n : ℕ) (alpha uL uR dx B : ℚ) (u0 : ℕ → ℚ)
    (ha0 : 0 ≤ alpha) (ha1 : alpha ≤ 1 / 2) (hL : 0 ≤ uL) (hR : 0 ≤ uR)
    (hdx : 0 ≤ dx) (hu0 : ∀ i, i < n → 0 ≤ u0 i)
    (hub : ∀ i, i < n → u0 i ≤ B) (hLB : uL ≤ B) (hRB : uR ≤ B)
    (hB : 0 ≤ B) :
    (∀ k i, i < n → 0 ≤ ftcs_iter n alpha uL uR u0 k i)
    ∧ (∀ k, 0 ≤ interior_mass n dx (ftcs_iter n alpha uL uR u0 k)
        ∧ interior_mass n dx (ftcs_iter n alpha uL uR u0 k) ≤ n * B * dx) := by
  have hnn := ftcs_iter_nonneg n alpha uL uR u0 ha0 ha1 hL hR hu0
  have hle := ftcs_iter_le n alpha uL uR B u0 ha0 ha1 hLB hRB hub
  refine ⟨hnn, fun k => ⟨?_, ?_⟩⟩
  · exact interior_mass_nonneg n dx _ hdx (hnn k)
  · exact interior_mass_le n dx B _ hdx hB (hle k)

/-- Witness for C7 at the concrete instance `n = 3`, `alpha = 1/2`,
`uL = uR = 0`, `dx = 1`, `u0 = 0`, `B = 1`. -/
theorem C7_witness :
    (∀ k i, i < 3 → 0 ≤ ftcs_iter 3 (1 / 2 : ℚ) 0 0 (fun _ => 0) k i)
    ∧ (∀ k, 0 ≤ interior_mass 3 (1 : ℚ) (ftcs_iter 3 (1 / 2 : ℚ) 0 0 (fun _ => 0) k)
        ∧ interior_mass 3 (1 : ℚ) (ftcs_iter 3 (1 / 2 : ℚ) 0 0 (fun _ => 0) k)
          ≤ 3 * 1 * 1) :=
  C7_thm 3 (1 / 2) 0 0 1 1 (fun _ => 0) (by norm_num) (by norm_num)
    (by norm_num) (by norm_num) (by norm_num) (fun i _ => by norm_num)
    (fun i _ => by norm_num) (by norm_num) (by norm_num) (by norm_num)

/-- Claim C10: in the ballistic notebook, after every time step both the
numerical and the analytic height values are clamped to be non-negative
(`np.maximum(·, 0)`) before being stored, so every stored height is `≥ 0`
even where the closed-form parabola is negative (witnessed at the notebook's
own parameters at step 70, where the parabola is negative but the stored
value is 0), and each numerical Euler step integrates from the clamped (not
the raw) previous stored height. -/
theorem C10_thm (zz0 xx0 uu0 ww0 grv deltat : ℚ) (hz : 0 ≤ zz0) :
    (∀ k, 0 ≤ nmr_zzfull zz0 ww0 grv deltat k)
    ∧ (∀ k, 0 ≤ atic_zzfull zz0 xx0 uu0 ww0 grv deltat k)
    ∧ (∀ k, nmr_zzfull zz0 ww0 grv deltat (k + 1)
        = max (nmr_zzfull zz0 ww0 grv deltat k
          + deltat * (ww0 - grv * (k + 1) * deltat)) 0)
    ∧ (analytic_ballistic (xxfull 0 5 (1 / 10) 70) 5 30 (981 / 100) < 0
      ∧ atic_zzfull 0 0 5 30 (981 / 100) (1 / 10) 70 = 0) := by
  refine ⟨?_, ?_, fun k => rfl, ?_, ?_⟩
  · intro k
    cases k with
    | zero => exact hz
    | succ k => exact le_max_right _ _
  · intro k
    cases k with
    | zero => exact hz
    | succ k => exact le_max_right _ _
  · norm_num [xxfull, analytic_ballistic]
  · norm_num [atic_zzfull, xxfull, analytic_ballistic]

/-- Witness for C10 at the notebook's own parameters
(`zz0 = xx0 = 0`, `uu0 = 5`, `ww0 = 30`, `grv = 9.81`, `deltat = 0.1`). -/
theorem C10_witness :
    (∀ k, 0 ≤ nmr_zzfull 0 30 (981 / 100) (1 / 10) k)
    ∧ (∀ k, 0 ≤ atic_zzfull 0 0 5 30 (981 / 100) (1 / 10) k)
    ∧ (∀ k, nmr_zzfull 0 30 (981 / 100) (1 / 10) (k + 1)
        = max (nmr_zzfull 0 30 (981 / 100) (1 / 10) k
          + (1 / 10) * (30 - (981 / 100) * (k + 1) * (1 / 10))) 0)
    ∧ (analytic_ballistic (xxfull 0 5 (1 / 10) 70) 5 30 (981 / 100) < 0
      ∧ atic_zzfull 0 0 5 30 (981 / 100) (1 / 10) 70 = 0) :=
  C10_thm 0 0 5 30 (981 / 100) (1 / 10) (by norm_num)

/-- Claim C3: in every time-stepping scheme the interior values at step `n+1`
are a function only of the complete frozen field at step `n` (and, for the
wave scheme, step `n-1`): the FTCS interior value after `k+1` iterations is
the three-point stencil of the step-`k` field, the first wave step's interior
values are a fixed expression in the initial field only, and every later wave
step's interior values are a fixed expression in the two previous
current-fields; no partially updated step-`n+1` value is ever read. -/
theorem C3_thm :
    (∀ (n : ℕ) (alpha uL uR : ℚ) (u0 : ℕ → ℚ) (k j : ℕ), 1 ≤ j → j + 1 < n →
      ftcs_iter n alpha uL uR u0 (k + 1) j
        = alpha * ftcs_iter n alpha uL uR u0 k (j - 1)
          + (1 - 2 * alpha) * ftcs_iter n alpha uL uR u0 k j
          + alpha * ftcs_iter n alpha uL uR u0 k (j + 1))
    ∧ (∀ (n : ℕ) (g dt dx : ℝ) (H w0 u0 : ℕ → ℝ) (j : ℕ), 1 ≤ j → j + 1 < n →
      (waveState n g dt dx H w0 u0 1).2 j
        = u0 j + (1 / 2) * wave_fac1 g dt dx H j * wave_sp_term1 u0 j
          + wave_fac2 g dt dx * wave_sp_term2 H u0 j)
    ∧ (∀ (n : ℕ) (g dt dx : ℝ) (H w0 u0 : ℕ → ℝ) (k j : ℕ), 1 ≤ j → j + 1 < n →
      (waveState n g dt dx H w0 u0 (k + 2)).2 j
        = -1 * (waveState n g dt dx H w0 u0 k).2 j
          + 2 * (waveState n g dt dx H w0 u0 (k + 1)).2 j
          + wave_fac1 g dt dx H j * wave_sp_term1 ((waveState n g dt dx H w0 u0 (k + 1)).2) j
          + wave_fac2 g dt dx * wave_sp_term2 H ((waveState n g dt dx H w0 u0 (k + 1)).2) j) := by
  refine ⟨?_, ?_, ?_⟩
  · intro n alpha uL uR u0 k j h1 h2
    exact ftcs_step_interior n alpha uL uR _ j h1 h2
  · intro n g dt dx H w0 u0 j h1 h2
    show waveStep n g dt dx H 0 w0 u0 j = _
    rw [waveStep_interior n g dt dx H 0 w0 u0 j h1 h2, waveInterior_first]
  · intro n g dt dx H w0 u0 k j h1 h2
    show waveStep n g dt dx H (k + 1) (waveState n g dt dx H w0 u0 (k + 1)).1
        (waveState n g dt dx H w0 u0 (k + 1)).2 j = _
    rw [waveStep_interior n g dt dx H (k + 1) _ _ j h1 h2,
      waveInterior_general g dt dx H (k + 1) _ _ j (by omega)]
    rfl

/-- Witness for C3 at concrete instances of all three conjuncts. -/
theorem C3_witness :
    (ftcs_iter 3 (0 : ℚ) 0 0 (fun _ => 0) 1 1
      = 0 * ftcs_iter 3 (0 : ℚ) 0 0 (fun _ => 0) 0 (1 - 1)
        + (1 - 2 * 0) * ftcs_iter 3 (0 : ℚ) 0 0 (fun _ => 0) 0 1
        + 0 * ftcs_iter 3 (0 : ℚ) 0 0 (fun _ => 0) 0 (1 + 1))
    ∧ ((waveState 5 1 1 1 (fun _ => 0) (fun _ => 0) (fun _ => 0) 1).2 1
      = (fun _ => (0 : ℝ)) 1
        + (1 / 2) * wave_fac1 1 1 1 (fun _ => 0) 1 * wave_sp_term1 (fun _ => 0) 1
        + wave_fac2 1 1 1 * wave_sp_term2 (fun _ => 0) (fun _ => 0) 1)
    ∧ ((waveState 5 1 1 1 (fun _ => 0) (fun _ => 0) (fun _ => 0) 2).2 1
      = -1 * (waveState 5 1 1 1 (fun _ => 0) (fun _ => 0) (fun _ => 0) 0).2 1
        + 2 * (waveState 5 1 1 1 (fun _ => 0) (fun _ => 0) (fun _ => 0) 1).2 1
        + wave_fac1 1 1 1 (fun _ => 0) 1
          * wave_sp_term1 ((waveState 5 1 1 1 (fun _ => 0) (fun _ => 0) (fun _ => 0) 1).2) 1
        + wave_fac2 1 1 1
          * wave_sp_term2 (fun _ => 0) ((waveState 5 1 1 1 (fun _ => 0) (fun _ => 0) (fun _ => 0) 1).2) 1) :=
  ⟨C3_thm.1 3 0 0 0 (fun _ => 0) 0 1 (by norm_num) (by norm_num),
    C3_thm.2.1 5 1 1 1 (fun _ => 0) (fun _ => 0) (fun _ => 0) 1 (by norm_num) (by norm_num),
    C3_thm.2.2 5 1 1 1 (fun _ => 0) (fun _ => 0) (fun _ => 0) 0 1 (by norm_num) (by norm_num)⟩

/-- Counterexample for C6 as stated: at `n = 5`, `g = 1`, `dt = 2`, `dx = 1`,
depth profile `H i = i` and initial field `u0 i = i`, the code's first wave
step at interior index 1 yields 5, whereas the claim's formula — previous
field plus one half of BOTH spatial stencil terms — yields 3: the source
halves only the Laplacian term and adds the full depth-gradient cross
term. -/
theorem C6_counterexample :
    (waveState 5 1 2 1 (fun i => (i : ℝ)) (fun _ => 0) (fun i => (i : ℝ)) 1).2 1 = 5
    ∧ waveFirstStep_claimForm 1 2 1 (fun i => (i : ℝ)) (fun i => (i : ℝ)) 1 = 3
    ∧ (5 : ℝ) ≠ 3 := by
  refine ⟨?_, ?_, by norm_num⟩
  · show waveStep 5 1 2 1 (fun i => (i : ℝ)) 0 (fun _ => 0) (fun i => (i : ℝ)) 1 = 5
    rw [waveStep_interior 5 1 2 1 _ 0 _ _ 1 (by norm_num) (by norm_num),
      waveInterior_first]
    unfold wave_fac1 wave_fac2 wave_sp_term1 wave_sp_term2
    norm_num [Real.sqrt_one]
  · unfold waveFirstStep_claimForm wave_fac1 wave_fac2 wave_sp_term1 wave_sp_term2
    norm_num [Real.sqrt_one]

/-- Claim C6 (amended): on the first time step of the wave scheme the interior
update reads only the previous level (the result does not depend on the
contents of the previous-previous buffer), and equals the previous field plus
one half of the Laplacian stencil term plus the FULL (not halved)
depth-gradient cross term; on every later step the general two-level form with
the previous-previous subtraction is used. -/
theorem C6_thm :
    (∀ (n : ℕ) (g dt dx : ℝ) (H w w' u0 : ℕ → ℝ),
      (waveState n g dt dx H w u0 1).2 = (waveState n g dt dx H w' u0 1).2)
    ∧ (∀ (n : ℕ) (g dt dx : ℝ) (H w0 u0 : ℕ → ℝ) (j : ℕ), 1 ≤ j → j + 1 < n →
      (waveState n g dt dx H w0 u0 1).2 j
        = u0 j + (1 / 2) * wave_fac1 g dt dx H j * wave_sp_term1 u0 j
          + wave_fac2 g dt dx * wave_sp_term2 H u0 j)
    ∧ (∀ (n : ℕ) (g dt dx : ℝ) (H w0 u0 : ℕ → ℝ) (k j : ℕ), 1 ≤ j → j + 1 < n →
      (waveState n g dt dx H w0 u0 (k + 2)).2 j
        = -1 * (waveState n g dt dx H w0 u0 k).2 j
          + 2 * (waveState n g dt dx H w0 u0 (k + 1)).2 j
          + wave_fac1 g dt dx H j * wave_sp_term1 ((waveState n g dt dx H w0 u0 (k + 1)).2) j
          + wave_fac2 g dt dx * wave_sp_term2 H ((waveState n g dt dx H w0 u0 (k + 1)).2) j) := by
  refine ⟨?_, ?_, ?_⟩
  · intro n g dt dx H w w' u0
    show waveStep n g dt dx H 0 w u0 = waveStep n g dt dx H 0 w' u0
    exact waveStep_first_indep n g dt dx H w w' u0
  · intro n g dt dx H w0 u0 j h1 h2
    show waveStep n g dt dx H 0 w0 u0 j = _
    rw [waveStep_interior n g dt dx H 0 w0 u0 j h1 h2, waveInterior_first]
  · intro n g dt dx H w0 u0 k j h1 h2
    show waveStep n g dt dx H (k + 1) (waveState n g dt dx H w0 u0 (k + 1)).1
        (waveState n g dt dx H w0 u0 (k + 1)).2 j = _
    rw [waveStep_interior n g dt dx H (k + 1) _ _ j (by omega) h2,
      waveInterior_general g dt dx H (k + 1) _ _ j (by omega)]
    rfl

/-- Witness for C6 at concrete instances of the conjuncts with hypotheses. -/
theorem C6_witness :
    ((waveState 5 1 1 1 (fun _ => 0) (fun _ => 1) (fun _ => 0) 1).2
      = (waveState 5 1 1 1 (fun _ => 0) (fun _ => 2) (fun _ => 0) 1).2)
    ∧ ((waveState 5 1 1 1 (fun _ => 0) (fun _ => 0) (fun _ => 0) 2).2 2
      = -1 * (waveState 5 1 1 1 (fun _ => 0) (fun _ => 0) (fun _ => 0) 0).2 2
        + 2 * (waveState 5 1 1 1 (fun _ => 0) (fun _ => 0) (fun _ => 0) 1).2 2
        + wave_fac1 1 1 1 (fun _ => 0) 2
          * wave_sp_term1 ((waveState 5 1 1 1 (fun _ => 0) (fun _ => 0) (fun _ => 0) 1).2) 2
        + wave_fac2 1 1 1
          * wave_sp_term2 (fun _ => 0) ((waveState 5 1 1 1 (fun _ => 0) (fun _ => 0) (fun _ => 0) 1).2) 2) :=
  ⟨C6_thm.1 5 1 1 1 (fun _ => 0) (fun _ => 1) (fun _ => 2) (fun _ => 0),
    C6_thm.2.2 5 1 1 1 (fun _ => 0) (fun _ => 0) (fun _ => 0) 0 2 (by norm_num) (by norm_num)⟩

/-- Counterexample for C2 as stated: for the implicit notebook's own system
(`n = 100`, `alpha = 0.0864`, initial field = baseline plus Gaussian spill),
the field after one implicit step has left boundary value equal to the
initial boundary value `0.561`, not the declared Dirichlet constant
`uu_left_dirich = 0.56`: a solution of the step system exists and its left
boundary differs from the prescribed Dirichlet constant. -/
theorem C2_counterexample :
    ∃ v : Fin OilImplicit.xnum → ℝ,
      (hmat OilImplicit.xnum OilImplicit.alpha).mulVec v = OilImplicit.uu_0_vec
        ∧ v ⟨0, by norm_num [OilImplicit.xnum]⟩ ≠ OilImplicit.uu_left_dirich := by
  obtain ⟨v, hv⟩ := hmat_mulVec_surjective OilImplicit.xnum OilImplicit.alpha
    OilImplicit.alpha_nonneg OilImplicit.uu_0_vec
  refine ⟨v, hv, ?_⟩
  have h0 : (0 : ℕ) < OilImplicit.xnum := by norm_num [OilImplicit.xnum]
  have hb := hmat_mulVec_first OilImplicit.xnum OilImplicit.alpha h0 v
  rw [hv] at hb
  intro hc
  refine OilImplicit.uu_0_left_ne_dirich ?_
  calc OilImplicit.uu_0 0 = OilImplicit.uu_0_vec ⟨0, h0⟩ := rfl
    _ = v ⟨0, h0⟩ := hb
    _ = OilImplicit.uu_left_dirich := hc

/-- Claim C2 (amended): after every time step, the two boundary values equal
their scheme's actual rule exactly, on every iteration: for the explicit FTCS
diffusion they equal the Dirichlet constants; for the wave scheme they equal
the interior value two points in; for the implicit scheme they remain exactly
equal to the initial field's boundary values, which the identity rows of the
coefficient matrix pin (these differ from the notebook's declared Dirichlet
constants, see the counterexample). -/
theorem C2_thm :
    (∀ (n : ℕ) (alpha uL uR : ℚ) (u0 : ℕ → ℚ) (k : ℕ), 2 ≤ n →
      ftcs_iter n alpha uL uR u0 (k + 1) 0 = uL
        ∧ ftcs_iter n alpha uL uR u0 (k + 1) (n - 1) = uR)
    ∧ (∀ (n : ℕ) (g dt dx : ℝ) (H w0 u0 : ℕ → ℝ) (k : ℕ), 5 ≤ n →
      (waveState n g dt dx H w0 u0 (k + 1)).2 0
          = (waveState n g dt dx H w0 u0 (k + 1)).2 2
        ∧ (waveState n g dt dx H w0 u0 (k + 1)).2 (n - 1)
          = (waveState n g dt dx H w0 u0 (k + 1)).2 (n - 3))
    ∧ (∀ (n : ℕ) (a : ℝ) (u0 : Fin n → ℝ) (traj : ℕ → Fin n → ℝ)
        (hn : 2 ≤ n), ImplRun n a u0 traj →
      ∀ k, traj k ⟨0, by omega⟩ = u0 ⟨0, by omega⟩
        ∧ traj k ⟨n - 1, by omega⟩ = u0 ⟨n - 1, by omega⟩) := by
  refine ⟨?_, ?_, ?_⟩
  · intro n alpha uL uR u0 k hn
    exact ⟨ftcs_step_left n alpha uL uR _ hn,
      ftcs_step_right n alpha uL uR _ (by omega)⟩
  · intro n g dt dx H w0 u0 k hn
    exact ⟨waveStep_left_bc n g dt dx H k _ _ hn,
      waveStep_right_bc n g dt dx H k _ _ hn⟩
  · intro n a u0 traj hn hrun k
    exact ImplRun_boundary n a u0 traj hrun hn k

/-- Witness for C2 at concrete instances of all three conjuncts. -/
theorem C2_witness :
    (ftcs_iter 2 (0 : ℚ) 3 4 (fun _ => 0) 1 0 = 3
      ∧ ftcs_iter 2 (0 : ℚ) 3 4 (fun _ => 0) 1 (2 - 1) = 4)
    ∧ ((waveState 5 1 1 1 (fun _ => 0) (fun _ => 0) (fun _ => 0) 1).2 0
        = (waveState 5 1 1 1 (fun _ => 0) (fun _ => 0) (fun _ => 0) 1).2 2
      ∧ (waveState 5 1 1 1 (fun _ => 0) (fun _ => 0) (fun _ => 0) 1).2 (5 - 1)
        = (waveState 5 1 1 1 (fun _ => 0) (fun _ => 0) (fun _ => 0) 1).2 (5 - 3))
    ∧ ((fun (_ : ℕ) (_ : Fin 2) => (0 : ℝ)) 7 ⟨0, by omega⟩
        = (fun (_ : Fin 2) => (0 : ℝ)) ⟨0, by omega⟩
      ∧ (fun (_ : ℕ) (_ : Fin 2) => (0 : ℝ)) 7 ⟨2 - 1, by omega⟩
        = (fun (_ : Fin 2) => (0 : ℝ)) ⟨2 - 1, by omega⟩) :=
  ⟨C2_thm.1 2 0 3 4 (fun _ => 0) 0 (by norm_num),
    C2_thm.2.1 5 1 1 1 (fun _ => 0) (fun _ => 0) (fun _ => 0) 0 (by norm_num),
    C2_thm.2.2 2 0 (fun _ => 0) (fun _ _ => 0) (by norm_num)
      ⟨rfl, fun _ => Matrix.mulVec_zero _⟩ 7⟩

/-- Claim C4: the implicit diffusion scheme's coefficient matrix is
tridiagonal with off-diagonal entries `-alpha` and main-diagonal entries
`1+2*alpha`, except that the first and last rows are identity rows; the
matrix does not depend on the time step (it is built once), each step's next
field solves `(coefficient matrix) * next = current` — and for `alpha ≥ 0`
that solution exists and is unique (`mulVec` is bijective) — and the
Dirichlet boundary values are carried by the matrix/right-hand side: the
solve itself fixes `next[0] = current[0]` and `next[n-1] = current[n-1]`,
with no boundary reassignment after the solve. -/
theorem C4_thm :
    (∀ (n : ℕ) (a : ℝ) (i j : Fin n),
      ((i : ℕ) = 0 → hmat n a i j = if (j : ℕ) = 0 then 1 else 0)
      ∧ (2 ≤ n → (i : ℕ) = n - 1 →
          hmat n a i j = if (j : ℕ) = n - 1 then 1 else 0)
      ∧ (1 ≤ (i : ℕ) → (i : ℕ) + 1 < n →
          hmat n a i j =
            if (j : ℕ) = (i : ℕ) then 1 + 2 * a
            else if (j : ℕ) = (i : ℕ) + 1 ∨ (i : ℕ) = (j : ℕ) + 1 then -a
            else 0))
    ∧ (∀ (n : ℕ) (a : ℝ), 0 ≤ a →
        Function.Injective ((hmat n a).mulVec)
          ∧ Function.Surjective ((hmat n a).mulVec))
    ∧ (∀ (n : ℕ) (a : ℝ) (u v : Fin n → ℝ) (hn : 2 ≤ n),
        (hmat n a).mulVec v = u →
          v ⟨0, by omega⟩ = u ⟨0, by omega⟩
            ∧ v ⟨n - 1, by omega⟩ = u ⟨n - 1, by omega⟩) := by
  refine ⟨?_, ?_, ?_⟩
  · intro n a i j
    exact ⟨fun hi => hmat_row_first n a i j hi,
      fun hn hi => hmat_row_last n a hn i j hi,
      fun h1 h2 => hmat_row_interior n a i j h1 h2⟩
  · intro n a ha
    exact ⟨hmat_mulVec_injective n a ha, hmat_mulVec_surjective n a ha⟩
  · intro n a u v hn hsolve
    have h1 := hmat_mulVec_first n a (by omega) v
    have h2 := hmat_mulVec_last n a hn v
    rw [hsolve] at h1 h2
    exact ⟨h1.symm, h2.symm⟩

/-- Witness for C4: uniqueness/existence of the solve at `n = 3`,
`alpha = 1`, and the boundary-preservation of the solve at the zero data. -/
theorem C4_witness :
    (Function.Injective ((hmat 3 (1 : ℝ)).mulVec)
      ∧ Function.Surjective ((hmat 3 (1 : ℝ)).mulVec))
    ∧ ((fun (_ : Fin 3) => (0 : ℝ)) ⟨0, by omega⟩
        = (fun (_ : Fin 3) => (0 : ℝ)) ⟨0, by omega⟩
      ∧ (fun (_ : Fin 3) => (0 : ℝ)) ⟨3 - 1, by omega⟩
        = (fun (_ : Fin 3) => (0 : ℝ)) ⟨3 - 1, by omega⟩) :=
  ⟨C4_thm.2.1 3 1 (by norm_num),
    C4_thm.2.2 3 1 (fun _ => 0) (fun _ => 0) (by norm_num)
      (Matrix.mulVec_zero _)⟩

/-- Claim C9: one step of the implicit diffusion update leaves the first and
last entries of the field unchanged (the first and last rows of the
coefficient matrix are identity rows), so along any run the boundary values
stay equal to the initial field's boundary values; for the notebook's data
the pinned left boundary value is `uu_base + uu_spill` (baseline plus
Gaussian spill value), which is NOT the declared constant
`uu_left_dirich = uu_spill`: the declared Dirichlet constants play no role in
the time loop. -/
theorem C9_thm :
    (∀ (n : ℕ) (a : ℝ) (hn : 2 ≤ n) (u v : Fin n → ℝ),
      (hmat n a).mulVec v = u →
        v ⟨0, by omega⟩ = u ⟨0, by omega⟩
          ∧ v ⟨n - 1, by omega⟩ = u ⟨n - 1, by omega⟩)
    ∧ (∀ (n : ℕ) (a : ℝ) (u0 : Fin n → ℝ) (traj : ℕ → Fin n → ℝ)
        (hn : 2 ≤ n), ImplRun n a u0 traj →
      ∀ k, traj k ⟨0, by omega⟩ = u0 ⟨0, by omega⟩
        ∧ traj k ⟨n - 1, by omega⟩ = u0 ⟨n - 1, by omega⟩)
    ∧ (OilImplicit.uu_0 0 = OilImplicit.uu_base + OilImplicit.uu_spill
      ∧ OilImplicit.uu_0 0 ≠ OilImplicit.uu_left_dirich
      ∧ OilImplicit.uu_left_dirich = OilImplicit.uu_spill) := by
  refine ⟨?_, ?_, OilImplicit.uu_0_left, OilImplicit.uu_0_left_ne_dirich, rfl⟩
  · intro n a hn u v hsolve
    have h1 := hmat_mulVec_first n a (by omega) v
    have h2 := hmat_mulVec_last n a hn v
    rw [hsolve] at h1 h2
    exact ⟨h1.symm, h2.symm⟩
  · intro n a u0 traj hn hrun k
    exact ImplRun_boundary n a u0 traj hrun hn k

/-- Witness for C9 at concrete instances of the two quantified conjuncts. -/
theorem C9_witness :
    ((fun (_ : Fin 2) => (0 : ℝ)) ⟨0, by omega⟩
        = (fun (_ : Fin 2) => (0 : ℝ)) ⟨0, by omega⟩
      ∧ (fun (_ : Fin 2) => (0 : ℝ)) ⟨2 - 1, by omega⟩
        = (fun (_ : Fin 2) => (0 : ℝ)) ⟨2 - 1, by omega⟩)
    ∧ ((fun (_ : ℕ) (_ : Fin 2) => (0 : ℝ)) 4 ⟨0, by omega⟩
        = (fun (_ : Fin 2) => (0 : ℝ)) ⟨0, by omega⟩
      ∧ (fun (_ : ℕ) (_ : Fin 2) => (0 : ℝ)) 4 ⟨2 - 1, by omega⟩
        = (fun (_ : Fin 2) => (0 : ℝ)) ⟨2 - 1, by omega⟩) :=
  ⟨C9_thm.1 2 0 (by norm_num) (fun _ => 0) (fun _ => 0) (Matrix.mulVec_zero _),
    C9_thm.2.1 2 0 (fun _ => 0) (fun _ _ => 0) (by norm_num)
      ⟨rfl, fun _ => Matrix.mulVec_zero _⟩ 4⟩

/-- Claim C8: for the derivative estimators applied to the sine samples of
the notebook (step 0.2 over a full period, 32 grid points), the maximum
absolute error of the centered estimates against cos at the grid points is
strictly smaller than the maximum absolute error of the forward estimates and
of the backward estimates. -/
theorem C8_thm :
    maxAbsErr SineFD.numx (cd_dudx SineFD.numx SineFD.deltax SineFD.uux)
        SineFD.true_dudx
      < maxAbsErr SineFD.numx (fd_dudx SineFD.numx SineFD.deltax SineFD.uux)
        SineFD.true_dudx
    ∧ maxAbsErr SineFD.numx (cd_dudx SineFD.numx SineFD.deltax SineFD.uux)
        SineFD.true_dudx
      < maxAbsErr SineFD.numx (bd_dudx SineFD.numx SineFD.deltax SineFD.uux)
        SineFD.true_dudx := by
  constructor
  · refine lt_of_le_of_lt SineFD.cd_maxAbsErr_le ?_
    refine lt_of_lt_of_le ?_ SineFD.fd_maxAbsErr_ge
    norm_num
  · refine lt_of_le_of_lt SineFD.cd_maxAbsErr_le ?_
    refine lt_of_lt_of_le ?_ SineFD.bd_maxAbsErr_ge
    norm_num
